import Mathlib

/-!
Verification of the Euler-filter core of `euler_filter.py` (Blender add-on).

The pure numeric core is embedded shallowly over `ℝ`:
`wrap_angle`, `naive_flip_diff`, `euler_axis_index`, `flip_euler`,
`euler_distance` and the sequential `euler_filter` pass are translated
definition-by-definition from the Python source.  Python `float`s are
modelled as real numbers; a Python function that can raise an exception
is modelled with `Option`.
-/

open Real

/-- An Euler value: three angles (in radians) indexed positionally,
mirroring `mathutils.Euler` indexing `e[0], e[1], e[2]`
(0 = X, 1 = Y, 2 = Z). -/
def Euler : Type := Fin 3 → ℝ

/-- A keyframe dictionary `{"key": frame, "rotation_euler": Euler}` as built
by `get_selected_rotation_keyframes` and consumed by `euler_filter`. -/
structure Keyframe where
  key : ℝ
  rotation_euler : Euler

/-- Python's `%` on floats with a positive modulus: the remainder
`x - m * floor (x / m)`, which is non-negative for `m > 0`. -/
noncomputable def pymod (x m : ℝ) : ℝ := x - m * (⌊x / m⌋ : ℤ)

/-- Source `wrap_angle(a)`: `(a + pi) % (2 * pi) - pi`. -/
noncomputable def wrap_angle (a : ℝ) : ℝ := pymod (a + π) (2 * π) - π

/-- Source `euler_distance(e1, e2)`: the L1 distance
`abs(e1[0]-e2[0]) + abs(e1[1]-e2[1]) + abs(e1[2]-e2[2])`. -/
noncomputable def euler_distance (e1 e2 : Euler) : ℝ :=
  |e1 0 - e2 0| + |e1 1 - e2 1| + |e1 2 - e2 2|

/-- Source `euler_axis_index(axis)`: `X ↦ 0`, `Y ↦ 1`, `Z ↦ 2`, anything
else `None`. -/
def euler_axis_index (axis : Char) : Option (Fin 3) :=
  if axis = 'X' then some 0
  else if axis = 'Y' then some 1
  else if axis = 'Z' then some 2
  else none

/-- Default keyframe used only to give `List.getD` a fallback value in
theorem statements; every use is guarded by an in-range hypothesis. -/
noncomputable def kf0 : Keyframe := ⟨0, fun _ => 0⟩

-- Basic facts about `pymod` with a positive modulus.

lemma pymod_nonneg {m : ℝ} (x : ℝ) (hm : 0 < m) : 0 ≤ pymod x m := by
  have h := Int.sub_floor_div_mul_nonneg x hm
  simpa [pymod, mul_comm] using h

lemma pymod_lt {m : ℝ} (x : ℝ) (hm : 0 < m) : pymod x m < m := by
  have h := Int.sub_floor_div_mul_lt x hm
  simpa [pymod, mul_comm] using h

lemma pymod_eq_self {m x : ℝ} (hm : 0 < m) (h0 : 0 ≤ x) (h1 : x < m) :
    pymod x m = x := by
  have hfloor : ⌊x / m⌋ = 0 := by
    rw [Int.floor_eq_zero_iff]
    constructor
    · exact div_nonneg h0 hm.le
    · rw [div_lt_one hm]; exact h1
  simp [pymod, hfloor]

/-- C9 part 1: `wrap_angle a` lies in the half-open interval `[-π, π)`. -/
lemma wrap_angle_mem (a : ℝ) : -π ≤ wrap_angle a ∧ wrap_angle a < π := by
  constructor
  · have h := pymod_nonneg (a + π) Real.two_pi_pos
    unfold wrap_angle
    linarith
  · have h := pymod_lt (a + π) Real.two_pi_pos
    unfold wrap_angle
    linarith

/-- C9 part 2: `wrap_angle` is idempotent. -/
lemma wrap_angle_idem (a : ℝ) : wrap_angle (wrap_angle a) = wrap_angle a := by
  have h0 := pymod_nonneg (a + π) Real.two_pi_pos
  have h1 := pymod_lt (a + π) Real.two_pi_pos
  unfold wrap_angle
  rw [pymod_eq_self Real.two_pi_pos (by linarith) (by linarith)]
  ring

-- `naive_flip_diff`: the while loop terminates because each iteration
-- moves `a2` by `2 * π` towards `a1`, so the ceiling measure below drops.

lemma nfd_measure_decr {d : ℝ} (hd : π < d) :
    ⌈(|d - 2 * π| - π) / (2 * π)⌉₊ < ⌈(d - π) / (2 * π)⌉₊ := by
  have h2 : (0 : ℝ) < 2 * π := Real.two_pi_pos
  have hpos : 0 < ⌈(d - π) / (2 * π)⌉₊ :=
    Nat.ceil_pos.mpr (div_pos (by linarith) h2)
  rcases le_or_lt d (3 * π) with hle | hgt
  · have habs : |d - 2 * π| ≤ π := by
      rw [abs_le]
      constructor <;> linarith
    have hz : (|d - 2 * π| - π) / (2 * π) ≤ 0 :=
      div_nonpos_of_nonpos_of_nonneg (by linarith) h2.le
    have : ⌈(|d - 2 * π| - π) / (2 * π)⌉₊ = 0 := Nat.ceil_eq_zero.mpr hz
    omega
  · have habs : |d - 2 * π| = d - 2 * π := abs_of_pos (by linarith)
    have hkey : (d - π) / (2 * π) = (|d - 2 * π| - π) / (2 * π) + 1 := by
      rw [habs]
      field_simp
      ring
    have hnn : (0 : ℝ) ≤ (|d - 2 * π| - π) / (2 * π) := by
      rw [habs]
      exact div_nonneg (by linarith) h2.le
    rw [hkey, Nat.ceil_add_one hnn]
    exact Nat.lt_succ_self _

/-- Source `naive_flip_diff(a1, a2)`: repeatedly move `a2` by `2 * pi` towards `a1`
while `abs(a1 - a2) > pi`, then return the shifted `a2`. -/
noncomputable def naive_flip_diff (a1 a2 : ℝ) : ℝ :=
  if h : π < |a1 - a2| then
    if h2 : a1 < a2 then naive_flip_diff a1 (a2 - 2 * π)
    else naive_flip_diff a1 (a2 + 2 * π)
  else a2
termination_by ⌈(|a1 - a2| - π) / (2 * π)⌉₊
decreasing_by
  · have hd : π < a2 - a1 := by
      rcases abs_cases (a1 - a2) with ⟨he1, _⟩ | ⟨he1, _⟩ <;> [linarith; linarith]
    have := nfd_measure_decr hd
    have harg : a1 - (a2 - 2 * π) = -((a2 - a1) - 2 * π) := by ring
    have habs : |a1 - (a2 - 2 * π)| = |(a2 - a1) - 2 * π| := by
      rw [harg, abs_neg]
    have habs2 : |a1 - a2| = a2 - a1 := by
      rw [abs_sub_comm]
      exact abs_of_pos (by linarith)
    rw [habs, habs2]
    exact this
  · have hd : π < a1 - a2 := by
      rcases abs_cases (a1 - a2) with ⟨he1, _⟩ | ⟨he1, _⟩ <;> [linarith; linarith]
    have := nfd_measure_decr hd
    have habs : |a1 - (a2 + 2 * π)| = |(a1 - a2) - 2 * π| := by
      congr 1
      ring
    have habs2 : |a1 - a2| = a1 - a2 := by
      have hp := Real.pi_pos
      exact abs_of_pos (by linarith)
    rw [habs, habs2]
    exact this

lemma nfd_unfold (a1 a2 : ℝ) :
    naive_flip_diff a1 a2 =
      if π < |a1 - a2| then
        if a1 < a2 then naive_flip_diff a1 (a2 - 2 * π)
        else naive_flip_diff a1 (a2 + 2 * π)
      else a2 := by
  rw [naive_flip_diff]
  by_cases h : π < |a1 - a2| <;> by_cases h2 : a1 < a2 <;> simp [h, h2]

lemma nfd_of_le {a1 a2 : ℝ} (h : |a1 - a2| ≤ π) : naive_flip_diff a1 a2 = a2 := by
  rw [nfd_unfold, if_neg (not_lt.mpr h)]

lemma nfd_spec_aux (a1 a2 : ℝ) :
    (∃ k : ℤ, naive_flip_diff a1 a2 = a2 + 2 * π * k) ∧
      |a1 - naive_flip_diff a1 a2| ≤ π := by
  induction a2 using naive_flip_diff.induct a1 with
  | case1 x h h2 ih =>
      rw [nfd_unfold, if_pos h, if_pos h2]
      obtain ⟨⟨k, hk⟩, hb⟩ := ih
      refine ⟨⟨k - 1, ?_⟩, hb⟩
      rw [hk]
      push_cast
      ring
  | case2 x h h2 ih =>
      rw [nfd_unfold, if_pos h, if_neg h2]
      obtain ⟨⟨k, hk⟩, hb⟩ := ih
      refine ⟨⟨k + 1, ?_⟩, hb⟩
      rw [hk]
      push_cast
      ring
  | case3 x h =>
      rw [nfd_unfold, if_neg h]
      exact ⟨⟨0, by simp⟩, le_of_not_lt h⟩

lemma nfd_congr (a1 a2 : ℝ) : ∃ k : ℤ, naive_flip_diff a1 a2 = a2 + 2 * π * k :=
  (nfd_spec_aux a1 a2).1

lemma nfd_close (a1 a2 : ℝ) : |a1 - naive_flip_diff a1 a2| ≤ π :=
  (nfd_spec_aux a1 a2).2

lemma nfd_min (a1 a2 : ℝ) (m : ℤ) :
    |a1 - naive_flip_diff a1 a2| ≤ |a1 - (a2 + 2 * π * m)| := by
  obtain ⟨⟨k, hk⟩, hb⟩ := nfd_spec_aux a1 a2
  by_cases hkm : k = m
  · rw [hk, hkm]
  · have hone : (1 : ℝ) ≤ |((k - m : ℤ) : ℝ)| := by
      rw [← Int.cast_abs]
      exact_mod_cast Int.one_le_abs (sub_ne_zero.mpr hkm)
    have hgap : 2 * π ≤ |naive_flip_diff a1 a2 - (a2 + 2 * π * m)| := by
      have hform : naive_flip_diff a1 a2 - (a2 + 2 * π * m) =
          2 * π * ((k - m : ℤ) : ℝ) := by
        rw [hk]
        push_cast
        ring
      rw [hform, abs_mul, abs_of_pos Real.two_pi_pos]
      nlinarith [Real.two_pi_pos]
    have htri : |naive_flip_diff a1 a2 - (a2 + 2 * π * m)| ≤
        |a1 - naive_flip_diff a1 a2| + |a1 - (a2 + 2 * π * m)| := by
      have := abs_sub (a1 - naive_flip_diff a1 a2) (a1 - (a2 + 2 * π * m))
      calc |naive_flip_diff a1 a2 - (a2 + 2 * π * m)|
          = |(a1 - (a2 + 2 * π * m)) - (a1 - naive_flip_diff a1 a2)| := by
            congr 1
            ring
        _ ≤ |a1 - (a2 + 2 * π * m)| + |a1 - naive_flip_diff a1 a2| :=
            abs_sub _ _
        _ = |a1 - naive_flip_diff a1 a2| + |a1 - (a2 + 2 * π * m)| := by ring
    linarith

/-- C5: `naive_flip_diff` (the spec's `continuationOf`) is total — it is
defined by well-founded recursion, so it terminates on every pair of real
inputs — and returns a value congruent to `a2` modulo `2π` whose absolute
difference from the reference `a1` is at most `π`; consequently it is a
congruent representative of `a2` closest in absolute difference to `a1`. -/
theorem naive_flip_diff_correct (a1 a2 : ℝ) :
    (∃ k : ℤ, naive_flip_diff a1 a2 = a2 + 2 * π * k) ∧
      |a1 - naive_flip_diff a1 a2| ≤ π ∧
      ∀ m : ℤ, |a1 - naive_flip_diff a1 a2| ≤ |a1 - (a2 + 2 * π * m)| :=
  ⟨nfd_congr a1 a2, nfd_close a1 a2, nfd_min a1 a2⟩

/-- The four sequential in-place updates of `flip_euler` once the axis
characters have been resolved to indices `i` (inner), `o` (outer),
`m` (middle): `ret[i] += pi; ret[o] += pi; ret[m] *= -1; ret[m] += pi`. -/
noncomputable def flip_core (euler : Euler) (i o m : Fin 3) : Euler :=
  let r1 := Function.update euler i (euler i + π)
  let r2 := Function.update r1 o (r1 o + π)
  let r3 := Function.update r2 m (r2 m * (-1))
  Function.update r3 m (r3 m + π)

/-- Source `flip_euler(euler, rotation_mode)`: reads the inner/outer/middle axis
characters `rotation_mode[0]`, `rotation_mode[2]`, `rotation_mode[1]` and
applies the four updates.  A missing character (string shorter than 3) or a
character outside `{X, Y, Z}` makes the Python code raise
(`IndexError` / indexing an `Euler` with `None`), modelled as `none`. -/
noncomputable def flip_euler (euler : Euler) (rotation_mode : String) : Option Euler :=
  ((rotation_mode.data.get? 0).bind euler_axis_index).bind fun i =>
    ((rotation_mode.data.get? 2).bind euler_axis_index).bind fun o =>
      ((rotation_mode.data.get? 1).bind euler_axis_index).bind fun m =>
        some (flip_core euler i o m)

/-- Pointwise value of `flip_core`: every axis first gets `+π` for each of
the inner/outer updates that hits it, then the middle axis is negated and
shifted by `π`. -/
lemma flip_core_apply (euler : Euler) (i o m j : Fin 3) :
    flip_core euler i o m j =
      (if j = m then
        -(euler j + (if j = i then π else 0) + (if j = o then π else 0))
      else
        euler j + (if j = i then π else 0) + (if j = o then π else 0)) +
      (if j = m then π else 0) := by
  unfold flip_core
  by_cases him : j = m <;> by_cases hii : j = i <;> by_cases hio : j = o <;>
    subst_eqs <;>
    simp_all [Function.update_apply]

lemma fin3_cover {i m o j : Fin 3} (him : i ≠ m) (hio : i ≠ o) (hmo : m ≠ o)
    (hjm : j ≠ m) : j = i ∨ j = o := by
  revert him hio hmo hjm
  revert i m o j
  decide

/-- C6: for every triple and every valid rotation order — three characters
resolving via `euler_axis_index` to pairwise distinct indices `i` (inner,
`order[0]`), `m` (middle, `order[1]`), `o` (outer, `order[2]`) —
`flip_euler` succeeds and returns the triple in which the inner and outer
axes are increased by `π` and the middle axis is replaced by its negation
plus `π`; no axis is changed in any other way. -/
theorem flip_euler_valid_order (e : Euler) (order : String) (i m o : Fin 3)
    (h0 : (order.data.get? 0).bind euler_axis_index = some i)
    (h1 : (order.data.get? 1).bind euler_axis_index = some m)
    (h2 : (order.data.get? 2).bind euler_axis_index = some o)
    (him : i ≠ m) (hio : i ≠ o) (hmo : m ≠ o) :
    flip_euler e order = some (fun j => if j = m then -(e j) + π else e j + π) := by
  unfold flip_euler
  rw [h0, h1, h2]
  simp only [Option.some_bind, Option.some.injEq]
  funext j
  rw [flip_core_apply]
  by_cases hjm : j = m
  · subst hjm
    simp [Ne.symm him, hmo]
  · rcases fin3_cover him hio hmo hjm with hji | hjo
    · subst hji
      simp [hjm, hio]
    · subst hjo
      simp [hjm, Ne.symm hio]

/-- The condition under which the Python `flip_euler` actually runs to
completion: the rotation-mode string has characters at positions 0, 2 and 1
and each of them is one of `'X'`, `'Y'`, `'Z'`.  This is weaker than being
a permutation of `XYZ` — e.g. `"XXY"` satisfies it. -/
def axes_ok (rotation_mode : String) : Bool :=
  (((rotation_mode.data.get? 0).bind euler_axis_index).isSome &&
    ((rotation_mode.data.get? 2).bind euler_axis_index).isSome) &&
  ((rotation_mode.data.get? 1).bind euler_axis_index).isSome

/-- C7 counterexample: `"XXY"` is not a permutation of the axis labels
`{X, Y, Z}`, yet `flip_euler` computes a result on it instead of failing —
there is no typed invalid-rotation-order error in the code. -/
theorem flip_euler_no_typed_error :
    ¬ List.Perm "XXY".data ['X', 'Y', 'Z'] ∧
      (flip_euler (fun _ => 0) "XXY").isSome = true := by
  constructor
  · decide
  · rfl

/-- C7 (amended): `flip_euler` fails (the Python code raises an untyped
`IndexError`/`TypeError`, modelled as `none`) exactly when one of the three
rotation-order characters it reads is missing or is not an axis label;
a non-permutation order whose characters are all valid labels is accepted
and produces a result. -/
theorem flip_euler_failure_condition (e : Euler) (order : String) :
    (flip_euler e order).isSome = axes_ok order := by
  unfold flip_euler axes_ok
  cases (order.data.get? 0).bind euler_axis_index <;>
    cases (order.data.get? 2).bind euler_axis_index <;>
      cases (order.data.get? 1).bind euler_axis_index <;> simp

/-- C9: for every angle `a`, `wrap_angle a` (computed in the source as
`(a + pi) % (2 * pi) - pi` with Python's non-negative float `%`) lies in
the half-open interval `[-π, π)`, and `wrap_angle` is idempotent. -/
theorem wrap_angle_correct (a : ℝ) :
    (-π ≤ wrap_angle a ∧ wrap_angle a < π) ∧
      wrap_angle (wrap_angle a) = wrap_angle a :=
  ⟨wrap_angle_mem a, wrap_angle_idem a⟩

/-- Lines 100-103 (and 106-108) of the source: unwrap each axis of a triple
against the previous emitted triple with `naive_flip_diff`. -/
noncomputable def unwrapped (prev cur : Euler) : Euler :=
  fun j => naive_flip_diff (prev j) (cur j)

/-- One iteration of the `euler_filter` loop body (lines 100-116): unwrap
the current triple, flip and re-unwrap it, compare L1 distances to the
previous emitted triple, and keep the flipped version only if it is
strictly closer. -/
noncomputable def filter_step (rotation_mode : String) (prev cur : Euler) :
    Option Euler :=
  (flip_euler (unwrapped prev cur) rotation_mode).bind fun fe0 =>
    some
      (if euler_distance prev (unwrapped prev fe0) <
          euler_distance prev (unwrapped prev cur) then
        unwrapped prev fe0
      else unwrapped prev cur)

/-- The `for i in range(1, len(kfs))` loop of `euler_filter`, carrying the
previously emitted triple. -/
noncomputable def euler_filter_loop (rotation_mode : String) (prev : Euler) :
    List Keyframe → Option (List Keyframe)
  | [] => some []
  | k :: ks =>
    (filter_step rotation_mode prev k.rotation_euler).bind fun chosen =>
      (euler_filter_loop rotation_mode chosen ks).map fun rest =>
        ⟨k.key, chosen⟩ :: rest

/-- Source `euler_filter(kfs, rotation_mode)`: sequences of length at most one are
returned unchanged; otherwise the first keyframe is emitted verbatim and
the loop processes the rest.  An exception raised by `flip_euler` aborts
the whole call, modelled as `none`. -/
noncomputable def euler_filter (kfs : List Keyframe) (rotation_mode : String) :
    Option (List Keyframe) :=
  if kfs.length ≤ 1 then some kfs
  else
    match kfs with
    | [] => some kfs
    | k0 :: rest =>
      (euler_filter_loop rotation_mode k0.rotation_euler rest).map fun out =>
        ⟨k0.key, k0.rotation_euler⟩ :: out

lemma loop_spec (rm : String) :
    ∀ (ks : List Keyframe) (prev : Euler) (out : List Keyframe),
      euler_filter_loop rm prev ks = some out →
      out.length = ks.length ∧
      ∀ i, i < ks.length →
        (out.getD i kf0).key = (ks.getD i kf0).key ∧
        filter_step rm
            (if i = 0 then prev else (out.getD (i - 1) kf0).rotation_euler)
            ((ks.getD i kf0).rotation_euler) =
          some ((out.getD i kf0).rotation_euler) := by
  intro ks
  induction ks with
  | nil =>
      intro prev out h
      simp only [euler_filter_loop, Option.some.injEq] at h
      subst h
      exact ⟨rfl, fun i hi => absurd hi (by simp)⟩
  | cons k ks ih =>
      intro prev out h
      simp only [euler_filter_loop] at h
      cases hstep : filter_step rm prev k.rotation_euler with
      | none => rw [hstep] at h; simp at h
      | some chosen =>
        rw [hstep] at h
        simp only [Option.some_bind] at h
        cases hrest : euler_filter_loop rm chosen ks with
        | none => rw [hrest] at h; simp at h
        | some rest =>
          rw [hrest] at h
          simp only [Option.map_some', Option.some.injEq] at h
          subst h
          obtain ⟨hlen, hspec⟩ := ih chosen rest hrest
          refine ⟨by simp [hlen], ?_⟩
          intro i hi
          cases i with
          | zero =>
              refine ⟨rfl, ?_⟩
              simpa using hstep
          | succ n =>
              have hn : n < ks.length := by
                simpa using hi
              obtain ⟨hkey, hstep2⟩ := hspec n hn
              refine ⟨by simpa using hkey, ?_⟩
              cases n with
              | zero => simpa using hstep2
              | succ p =>
                  have h1 : (Keyframe.mk k.key chosen :: rest).getD (p + 2 - 1) kf0 =
                      rest.getD (p + 1 - 1) kf0 := by
                    simp
                  rw [h1]
                  simpa using hstep2

lemma filter_step_close {rm : String} {prev cur chosen : Euler}
    (h : filter_step rm prev cur = some chosen) :
    ∀ j, |prev j - chosen j| ≤ π := by
  unfold filter_step at h
  cases hf : flip_euler (unwrapped prev cur) rm with
  | none => rw [hf] at h; simp at h
  | some fe0 =>
      rw [hf] at h
      simp only [Option.some_bind, Option.some.injEq] at h
      intro j
      by_cases hlt : euler_distance prev (unwrapped prev fe0) <
          euler_distance prev (unwrapped prev cur)
      · rw [if_pos hlt] at h
        rw [← h]
        exact nfd_close (prev j) (fe0 j)
      · rw [if_neg hlt] at h
        rw [← h]
        exact nfd_close (prev j) (cur j)

lemma flip_euler_congruence {a b : Euler} (rm : String)
    (hab : ∀ j, ∃ k : ℤ, a j = b j + 2 * π * k) :
    ∀ fa, flip_euler a rm = some fa →
      ∃ fb, flip_euler b rm = some fb ∧
        ∀ j, ∃ k : ℤ, fa j = fb j + 2 * π * k := by
  intro fa hfa
  unfold flip_euler at hfa ⊢
  cases h0 : (rm.data.get? 0).bind euler_axis_index with
  | none => rw [h0] at hfa; simp at hfa
  | some i =>
  cases h2 : (rm.data.get? 2).bind euler_axis_index with
  | none => rw [h0, h2] at hfa; simp at hfa
  | some o =>
  cases h1 : (rm.data.get? 1).bind euler_axis_index with
  | none => rw [h0, h2, h1] at hfa; simp at hfa
  | some m =>
  rw [h0, h2, h1] at hfa
  simp only [Option.some_bind, Option.some.injEq] at hfa ⊢
  refine ⟨flip_core b i o m, rfl, ?_⟩
  intro j
  obtain ⟨k, hk⟩ := hab j
  rw [← hfa, flip_core_apply, flip_core_apply]
  by_cases hjm : j = m
  · refine ⟨-k, ?_⟩
    rw [if_pos hjm, if_pos hjm, if_pos hjm, hk]
    push_cast
    ring
  · refine ⟨k, ?_⟩
    rw [if_neg hjm, if_neg hjm, if_neg hjm, hk]
    ring

lemma unwrapped_congr (prev cur : Euler) :
    ∀ j, ∃ k : ℤ, unwrapped prev cur j = cur j + 2 * π * k := by
  intro j
  exact nfd_congr (prev j) (cur j)

lemma filter_step_equiv {rm : String} {prev cur chosen : Euler}
    (h : filter_step rm prev cur = some chosen) :
    (∀ j, ∃ k : ℤ, chosen j = cur j + 2 * π * k) ∨
      (∃ fc, flip_euler cur rm = some fc ∧
        ∀ j, ∃ k : ℤ, chosen j = fc j + 2 * π * k) := by
  unfold filter_step at h
  cases hf : flip_euler (unwrapped prev cur) rm with
  | none => rw [hf] at h; simp at h
  | some fe0 =>
      rw [hf] at h
      simp only [Option.some_bind, Option.some.injEq] at h
      by_cases hlt : euler_distance prev (unwrapped prev fe0) <
          euler_distance prev (unwrapped prev cur)
      · rw [if_pos hlt] at h
        right
        obtain ⟨fc, hfc, hcong⟩ :=
          flip_euler_congruence rm (unwrapped_congr prev cur) fe0 hf
        refine ⟨fc, hfc, ?_⟩
        intro j
        obtain ⟨k1, hk1⟩ := nfd_congr (prev j) (fe0 j)
        obtain ⟨k2, hk2⟩ := hcong j
        refine ⟨k1 + k2, ?_⟩
        rw [← h]
        show naive_flip_diff (prev j) (fe0 j) = fc j + 2 * π * (k1 + k2 : ℤ)
        rw [hk1, hk2]
        push_cast
        ring
      · rw [if_neg hlt] at h
        left
        intro j
        rw [← h]
        exact nfd_congr (prev j) (cur j)

lemma euler_filter_short {kfs : List Keyframe} (rm : String)
    (h : kfs.length ≤ 1) : euler_filter kfs rm = some kfs := by
  unfold euler_filter
  rw [if_pos h]

lemma euler_filter_spec {kfs : List Keyframe} {rm : String}
    {out : List Keyframe} (hrun : euler_filter kfs rm = some out)
    (h2 : 2 ≤ kfs.length) :
    out.length = kfs.length ∧
    (out.getD 0 kf0).key = (kfs.getD 0 kf0).key ∧
    (out.getD 0 kf0).rotation_euler = (kfs.getD 0 kf0).rotation_euler ∧
    ∀ i, 1 ≤ i → i < kfs.length →
      (out.getD i kf0).key = (kfs.getD i kf0).key ∧
      filter_step rm ((out.getD (i - 1) kf0).rotation_euler)
          ((kfs.getD i kf0).rotation_euler) =
        some ((out.getD i kf0).rotation_euler) := by
  unfold euler_filter at hrun
  rw [if_neg (by omega)] at hrun
  cases kfs with
  | nil => simp at h2
  | cons k0 rest =>
  dsimp only at hrun
  cases hloop : euler_filter_loop rm k0.rotation_euler rest with
  | none => rw [hloop] at hrun; simp at hrun
  | some lout =>
  rw [hloop] at hrun
  simp only [Option.map_some', Option.some.injEq] at hrun
  subst hrun
  obtain ⟨hlen, hspec⟩ := loop_spec rm rest k0.rotation_euler lout hloop
  refine ⟨by simp [hlen], by simp, by simp, ?_⟩
  intro i h1 hk
  obtain ⟨n, rfl⟩ : ∃ n, i = n + 1 := ⟨i - 1, by omega⟩
  have hn : n < rest.length := by
    simp only [List.length_cons] at hk
    omega
  obtain ⟨hkey, hstepn⟩ := hspec n hn
  constructor
  · simpa using hkey
  · cases n with
    | zero => simpa using hstepn
    | succ p => simpa using hstepn

/-- C2: whenever `euler_filter` returns a sequence, it has the same length
as the input, and each output keyframe carries the same time key as the
input keyframe at the same index. -/
theorem euler_filter_preserves_length_and_keys (kfs : List Keyframe)
    (rm : String) (out : List Keyframe)
    (hrun : euler_filter kfs rm = some out) :
    out.length = kfs.length ∧
    ∀ i, i < kfs.length → (out.getD i kf0).key = (kfs.getD i kf0).key := by
  rcases le_or_lt kfs.length 1 with hs | hl
  · rw [euler_filter_short rm hs] at hrun
    simp only [Option.some.injEq] at hrun
    subst hrun
    exact ⟨rfl, fun i _ => rfl⟩
  · obtain ⟨hlen, hkey0, _, hspec⟩ := euler_filter_spec hrun (by omega)
    refine ⟨hlen, ?_⟩
    intro i hi
    cases i with
    | zero => exact hkey0
    | succ n => exact (hspec (n + 1) (by omega) hi).1

/-- C3: an input of length 0 or 1 is returned unchanged, and whenever the
filter returns a sequence for a nonempty input, the first output triple is
exactly the first input triple. -/
theorem euler_filter_short_input_first_passthrough (kfs : List Keyframe)
    (rm : String) :
    (kfs.length ≤ 1 → euler_filter kfs rm = some kfs) ∧
    ∀ out, euler_filter kfs rm = some out → 1 ≤ kfs.length →
      (out.getD 0 kf0).rotation_euler = (kfs.getD 0 kf0).rotation_euler := by
  refine ⟨fun hs => euler_filter_short rm hs, ?_⟩
  intro out hrun _
  rcases le_or_lt kfs.length 1 with hs | hl
  · rw [euler_filter_short rm hs] at hrun
    simp only [Option.some.injEq] at hrun
    subst hrun
    rfl
  · exact (euler_filter_spec hrun (by omega)).2.2.1

/-- C1: every output triple is congruent per axis modulo `2π` to the input
triple at the same index, either directly or after one application of
`flip_euler` with the given rotation order. -/
theorem euler_filter_orientation_equivalence (kfs : List Keyframe)
    (rm : String) (out : List Keyframe)
    (hrun : euler_filter kfs rm = some out) (i : ℕ) (hk : i < kfs.length) :
    (∀ j, ∃ k : ℤ, (out.getD i kf0).rotation_euler j =
        (kfs.getD i kf0).rotation_euler j + 2 * π * k) ∨
    (∃ fc, flip_euler ((kfs.getD i kf0).rotation_euler) rm = some fc ∧
      ∀ j, ∃ k : ℤ, (out.getD i kf0).rotation_euler j = fc j + 2 * π * k) := by
  rcases le_or_lt kfs.length 1 with hs | hl
  · rw [euler_filter_short rm hs] at hrun
    simp only [Option.some.injEq] at hrun
    subst hrun
    exact Or.inl fun j => ⟨0, by simp⟩
  · obtain ⟨_, _, hre0, hspec⟩ := euler_filter_spec hrun (by omega)
    cases i with
    | zero => exact Or.inl fun j => ⟨0, by rw [hre0]; simp⟩
    | succ n =>
        have hstep := (hspec (n + 1) (by omega) hk).2
        exact filter_step_equiv hstep

/-- C4: at every step `i ≥ 1`, the flipped-and-unwrapped candidate is
emitted when its L1 distance to the previously emitted triple is strictly
smaller than the unwrapped candidate's distance, and the unwrapped
candidate is kept otherwise — in particular on exact ties. -/
theorem euler_filter_flip_choice (kfs : List Keyframe) (rm : String)
    (out : List Keyframe) (hrun : euler_filter kfs rm = some out)
    (i : ℕ) (h1 : 1 ≤ i) (hk : i < kfs.length) (fe0 : Euler)
    (hf : flip_euler (unwrapped ((out.getD (i - 1) kf0).rotation_euler)
        ((kfs.getD i kf0).rotation_euler)) rm = some fe0) :
    (euler_distance ((out.getD (i - 1) kf0).rotation_euler)
        (unwrapped ((out.getD (i - 1) kf0).rotation_euler) fe0) <
      euler_distance ((out.getD (i - 1) kf0).rotation_euler)
        (unwrapped ((out.getD (i - 1) kf0).rotation_euler)
          ((kfs.getD i kf0).rotation_euler)) →
      (out.getD i kf0).rotation_euler =
        unwrapped ((out.getD (i - 1) kf0).rotation_euler) fe0) ∧
    (euler_distance ((out.getD (i - 1) kf0).rotation_euler)
        (unwrapped ((out.getD (i - 1) kf0).rotation_euler)
          ((kfs.getD i kf0).rotation_euler)) ≤
      euler_distance ((out.getD (i - 1) kf0).rotation_euler)
        (unwrapped ((out.getD (i - 1) kf0).rotation_euler) fe0) →
      (out.getD i kf0).rotation_euler =
        unwrapped ((out.getD (i - 1) kf0).rotation_euler)
          ((kfs.getD i kf0).rotation_euler)) := by
  have h2 : 2 ≤ kfs.length := by omega
  obtain ⟨_, _, _, hspec⟩ := euler_filter_spec hrun h2
  have hstep := (hspec i h1 hk).2
  unfold filter_step at hstep
  rw [hf] at hstep
  simp only [Option.some_bind, Option.some.injEq] at hstep
  constructor
  · intro hlt
    rw [if_pos hlt] at hstep
    exact hstep.symm
  · intro hge
    rw [if_neg (not_lt.mpr hge)] at hstep
    exact hstep.symm

/-- C10: for every run of the filter, each axis of an output triple differs
from the same axis of the previous output triple by at most `π`, because
both candidates are per-axis unwrapped against the previously emitted
triple before one is chosen. -/
theorem euler_filter_adjacent_bounded (kfs : List Keyframe) (rm : String)
    (out : List Keyframe) (hrun : euler_filter kfs rm = some out)
    (i : ℕ) (h1 : 1 ≤ i) (hi : i < out.length) (j : Fin 3) :
    |(out.getD (i - 1) kf0).rotation_euler j -
      (out.getD i kf0).rotation_euler j| ≤ π := by
  rcases le_or_lt kfs.length 1 with hs | hl
  · rw [euler_filter_short rm hs] at hrun
    simp only [Option.some.injEq] at hrun
    subst hrun
    omega
  · obtain ⟨hlen, _, _, hspec⟩ := euler_filter_spec hrun (by omega)
    have hk : i < kfs.length := hlen ▸ hi
    have hstep := (hspec i h1 hk).2
    exact filter_step_close hstep j

-- Concrete witness data: a two-keyframe sequence with all angles zero.

noncomputable def zeroE : Euler := fun _ => 0

noncomputable def piE : Euler := fun _ => π

noncomputable def kfs0 : List Keyframe := [⟨0, zeroE⟩, ⟨1, zeroE⟩]

noncomputable def kfs1 : List Keyframe := [⟨0, zeroE⟩]

lemma unwrapped_zero : unwrapped zeroE zeroE = zeroE := by
  funext j
  show naive_flip_diff 0 0 = (0 : ℝ)
  exact nfd_of_le (by simpa using Real.pi_nonneg)

lemma flip_zero : flip_euler zeroE "XYZ" = some (flip_core zeroE 0 2 1) := rfl

lemma flip_core_zero : flip_core zeroE 0 2 1 = piE := by
  funext j
  rw [flip_core_apply]
  fin_cases j <;> simp [zeroE, piE]

lemma unwrapped_zero_pi : unwrapped zeroE piE = piE := by
  funext j
  show naive_flip_diff 0 π = π
  exact nfd_of_le (by simp [abs_of_nonpos, Real.pi_nonneg])

lemma dist_zero_zero : euler_distance zeroE zeroE = 0 := by
  simp [euler_distance, zeroE]

lemma dist_zero_pi : euler_distance zeroE piE = 3 * π := by
  simp [euler_distance, zeroE, piE, abs_of_nonneg Real.pi_nonneg]
  ring

lemma step0 : filter_step "XYZ" zeroE zeroE = some zeroE := by
  unfold filter_step
  rw [unwrapped_zero, flip_zero]
  simp only [Option.some_bind, Option.some.injEq]
  rw [flip_core_zero, unwrapped_zero_pi, dist_zero_zero, dist_zero_pi]
  rw [if_neg (not_lt.mpr (by positivity))]

lemma eval0 : euler_filter kfs0 "XYZ" = some kfs0 := by
  unfold euler_filter kfs0
  rw [if_neg (by simp)]
  dsimp only
  unfold euler_filter_loop
  rw [show (Keyframe.mk (1 : ℝ) zeroE).rotation_euler = zeroE from rfl, step0]
  simp only [Option.some_bind]
  unfold euler_filter_loop
  rfl

/-- Witness for C1 at the concrete run `eval0`. -/
theorem euler_filter_orientation_equivalence_witness :
    (∀ j, ∃ k : ℤ, (kfs0.getD 1 kf0).rotation_euler j =
        (kfs0.getD 1 kf0).rotation_euler j + 2 * π * k) ∨
    (∃ fc, flip_euler ((kfs0.getD 1 kf0).rotation_euler) "XYZ" = some fc ∧
      ∀ j, ∃ k : ℤ, (kfs0.getD 1 kf0).rotation_euler j = fc j + 2 * π * k) :=
  euler_filter_orientation_equivalence kfs0 "XYZ" kfs0 eval0 1 (by simp [kfs0])

/-- Witness for C2 at the concrete run `eval0`. -/
theorem euler_filter_preserves_length_and_keys_witness :
    kfs0.length = kfs0.length ∧
    ∀ i, i < kfs0.length → (kfs0.getD i kf0).key = (kfs0.getD i kf0).key :=
  euler_filter_preserves_length_and_keys kfs0 "XYZ" kfs0 eval0

/-- Witness for C3: a length-1 input is returned unchanged, and the first
output triple of the concrete run `eval0` equals the first input triple. -/
theorem euler_filter_short_input_first_passthrough_witness :
    euler_filter kfs1 "XYZ" = some kfs1 ∧
    (kfs0.getD 0 kf0).rotation_euler = (kfs0.getD 0 kf0).rotation_euler :=
  ⟨(euler_filter_short_input_first_passthrough kfs1 "XYZ").1 (by simp [kfs1]),
    (euler_filter_short_input_first_passthrough kfs0 "XYZ").2 kfs0 eval0
      (by simp [kfs0])⟩

/-- Witness for C6 at the order `"XYZ"` and the zero triple. -/
theorem flip_euler_valid_order_witness :
    flip_euler zeroE "XYZ" =
      some (fun j => if j = (1 : Fin 3) then -(zeroE j) + π else zeroE j + π) :=
  flip_euler_valid_order zeroE "XYZ" 0 1 2 rfl rfl rfl (by decide) (by decide)
    (by decide)

/-- Witness for C10 at the concrete run `eval0`. -/
theorem euler_filter_adjacent_bounded_witness :
    |(kfs0.getD 0 kf0).rotation_euler 0 - (kfs0.getD 1 kf0).rotation_euler 0| ≤ π :=
  euler_filter_adjacent_bounded kfs0 "XYZ" kfs0 eval0 1 (by omega)
    (by simp [kfs0]) 0

lemma kfs0_getD_zero : (kfs0.getD 0 kf0).rotation_euler = zeroE := rfl

lemma kfs0_getD_one : (kfs0.getD 1 kf0).rotation_euler = zeroE := rfl

/-- Witness for C4 at the concrete run `eval0`: the candidate distance is
not larger than the flipped distance, so the non-flipped candidate is
emitted. -/
theorem euler_filter_flip_choice_witness :
    (kfs0.getD 1 kf0).rotation_euler =
      unwrapped ((kfs0.getD 0 kf0).rotation_euler)
        ((kfs0.getD 1 kf0).rotation_euler) := by
  have hf : flip_euler (unwrapped ((kfs0.getD 0 kf0).rotation_euler)
      ((kfs0.getD 1 kf0).rotation_euler)) "XYZ" = some piE := by
    rw [kfs0_getD_zero, kfs0_getD_one, unwrapped_zero, flip_zero,
      flip_core_zero]
  refine (euler_filter_flip_choice kfs0 "XYZ" kfs0 eval0 1 (by omega)
    (by simp [kfs0]) piE hf).2 ?_
  rw [kfs0_getD_zero, kfs0_getD_one, unwrapped_zero, unwrapped_zero_pi,
    dist_zero_zero, dist_zero_pi]
  positivity
